import Mathlib

/-!
# Verification of the auto-voting scheduler app (`app_scheduler.py`)

Shallow embedding of the single-file application: the file-backed token
store (JSON array of strings), the log sink, the vote client
(`run_request_for_token`), the batch runner (`run_all_tokens`), the UI
handlers for adding and deleting tokens, and the daily scheduler loop.

External effects (the HTTP POST, the log-file write, the wall clock) are
made explicit parameters: each call site receives the outcome the outside
world would produce, and the embedded function computes exactly what the
Python code computes from that outcome.
-/

namespace RunVote

/-! ## JSON serialization of the token file

`save_tokens` writes `json.dumps(tokens, ensure_ascii=False, indent=2)`;
`load_tokens` reads the file back with `json.loads`.  We model the
serializer exactly (for lists of strings, the only value the app ever
writes) and model `json.loads` as a parser for JSON arrays of strings:
JSON documents of any other shape are treated as unparsable, which is the
only shape the store ever persists. -/

/-- Lower-case hexadecimal digit, as emitted by Python's `json.dumps`
for control-character escapes. -/
def hexDigit (n : Nat) : Char :=
  if n < 10 then Char.ofNat (48 + n) else Char.ofNat (87 + n)

/-- Value of a hexadecimal digit accepted inside a `\u` escape. -/
def hexVal (c : Char) : Option Nat :=
  if '0' ≤ c ∧ c ≤ '9' then some (c.toNat - 48)
  else if 'a' ≤ c ∧ c ≤ 'f' then some (c.toNat - 87)
  else if 'A' ≤ c ∧ c ≤ 'F' then some (c.toNat - 55)
  else none

/-- How `json.dumps(..., ensure_ascii=False)` escapes one character of a
string: quote and backslash get a backslash escape, control characters
get their short escape or a `\u00XX` escape, everything else is emitted
raw. -/
def escapeChar (c : Char) : List Char :=
  if c = '"' then ['\\', '"']
  else if c = '\\' then ['\\', '\\']
  else if c.toNat < 32 then
    if c = '\n' then ['\\', 'n']
    else if c = '\t' then ['\\', 't']
    else if c = '\r' then ['\\', 'r']
    else if c.toNat = 8 then ['\\', 'b']
    else if c.toNat = 12 then ['\\', 'f']
    else ['\\', 'u', '0', '0', hexDigit (c.toNat / 16), hexDigit (c.toNat % 16)]
  else [c]

/-- `json.dumps` escaping of a whole string body. -/
def escapeStr (s : List Char) : List Char :=
  (s.map escapeChar).flatten

/-- A JSON string literal: `"` + escaped body + `"`. -/
def quoteStr (s : String) : List Char :=
  '"' :: (escapeStr s.data ++ ['"'])

/-- Tail of the `indent=2` array rendering after the first element:
either closes the array or emits `,\n  ` and the next element. -/
def dumpsRest : List String → List Char
  | [] => ['\n', ']']
  | s :: ss => ',' :: '\n' :: ' ' :: ' ' :: (quoteStr s ++ dumpsRest ss)

/-- Characters of `json.dumps(tokens, ensure_ascii=False, indent=2)`:
`[]` for the empty list, otherwise `[\n  "x",\n  "y"\n]`. -/
def dumpsChars : List String → List Char
  | [] => ['[', ']']
  | s :: ss => '[' :: '\n' :: ' ' :: ' ' :: (quoteStr s ++ dumpsRest ss)

/-- File content written by `save_tokens(tokens)`
(`json.dumps(tokens, ensure_ascii=False, indent=2)`). -/
def save_tokens (tokens : List String) : String :=
  ⟨dumpsChars tokens⟩

/-- JSON insignificant whitespace. -/
def jsonWs (c : Char) : Bool :=
  c = ' ' || c = '\t' || c = '\n' || c = '\r'

/-- Skip JSON whitespace. -/
def skipWs : List Char → List Char
  | [] => []
  | c :: cs => if jsonWs c then skipWs cs else c :: cs

/-- Prepend a character to the string being accumulated by the
string-literal parser. -/
def consParsed (c : Char) : Option (List Char × List Char) → Option (List Char × List Char)
  | none => none
  | some (s, r) => some (c :: s, r)

/-- Parse the body of a JSON string literal (the opening quote already
consumed), returning the decoded characters and the rest of the input.
Strict mode, as `json.loads` defaults to: raw control characters are
rejected.  Lone-surrogate `\u` escapes, which Lean's `Char` cannot
represent, decode through `Char.ofNat`'s default; `json.dumps` never
emits them for the values the app stores. -/
def parseStrBody : List Char → Option (List Char × List Char)
  | [] => none
  | c :: cs =>
    if c = '"' then some ([], cs)
    else if c = '\\' then
      match cs with
      | [] => none
      | e :: cs2 =>
        if e = '"' then consParsed '"' (parseStrBody cs2)
        else if e = '\\' then consParsed '\\' (parseStrBody cs2)
        else if e = '/' then consParsed '/' (parseStrBody cs2)
        else if e = 'b' then consParsed (Char.ofNat 8) (parseStrBody cs2)
        else if e = 'f' then consParsed (Char.ofNat 12) (parseStrBody cs2)
        else if e = 'n' then consParsed '\n' (parseStrBody cs2)
        else if e = 'r' then consParsed '\r' (parseStrBody cs2)
        else if e = 't' then consParsed '\t' (parseStrBody cs2)
        else if e = 'u' then
          match cs2 with
          | h1 :: h2 :: h3 :: h4 :: cs3 =>
            match hexVal h1, hexVal h2, hexVal h3, hexVal h4 with
            | some a, some b, some c2, some d =>
              consParsed (Char.ofNat (((a * 16 + b) * 16 + c2) * 16 + d)) (parseStrBody cs3)
            | _, _, _, _ => none
          | _ => none
        else none
    else if c.toNat < 32 then none
    else consParsed c (parseStrBody cs)

/-- Parse a JSON string literal including its opening quote. -/
def parseStr : List Char → Option (List Char × List Char)
  | [] => none
  | c :: cs => if c = '"' then parseStrBody cs else none

/-- Parse the comma-separated elements of a JSON array of strings,
positioned at the first character of a string literal; consumes the
closing `]`.  Fuel-driven recursion; each recursive step consumes at
least one input character, so fuel `length + 1` always suffices. -/
def parseElems : Nat → List Char → Option (List String × List Char)
  | 0, _ => none
  | fuel + 1, cs =>
    match parseStr cs with
    | none => none
    | some (s, r) =>
      match skipWs r with
      | [] => none
      | c :: r2 =>
        if c = ']' then some ([⟨s⟩], r2)
        else if c = ',' then
          match parseElems fuel (skipWs r2) with
          | some (ss, r3) => some (⟨s⟩ :: ss, r3)
          | none => none
        else none

/-- Accept a parsed array when only whitespace follows it, as
`json.loads` does. -/
def finishParse (res : Option (List String × List Char)) : Option (List String) :=
  match res with
  | some (ss, rest) => if (skipWs rest).isEmpty then some ss else none
  | none => none

/-- Model of `json.loads` restricted to the token-store shape: a JSON
array of strings.  Any other document is treated as unparsable (the app
only ever writes arrays of strings). -/
def loads (text : String) : Option (List String) :=
  match skipWs text.data with
  | [] => none
  | c :: r =>
    if c = '[' then
      match skipWs r with
      | [] => none
      | c2 :: r2 =>
        if c2 = ']' then if (skipWs r2).isEmpty then some [] else none
        else finishParse (parseElems (text.data.length + 1) (c2 :: r2))
    else none

/-- `load_tokens()`: returns the parsed token file, `[]` when the file is
absent (`TOKENS_FILE.exists()` false) or unparsable (the bare
`except Exception: return []`).  The file state is `none` when absent,
`some content` when present. -/
def load_tokens (file : Option String) : List String :=
  match file with
  | none => []
  | some c => (loads c).getD []

/-! ## UI handlers for the token list -/

/-- Whitespace as Python's `str.strip` removes it (the ASCII part;
tokens are ASCII bearer credentials). -/
def pyWs (c : Char) : Bool :=
  c = ' ' || c = '\t' || c = '\n' || c = '\r' || c.toNat = 11 || c.toNat = 12

/-- Model of Python `str.strip()`: drop leading and trailing
whitespace. -/
def pyStrip (s : String) : String :=
  ⟨(((s.data.dropWhile pyWs).reverse).dropWhile pyWs).reverse⟩

/-- Split a character list at newline characters. -/
def splitlinesChars : List Char → List (List Char)
  | [] => [[]]
  | c :: rest =>
    match splitlinesChars rest with
    | [] => [[c]]
    | l :: ls => if c = '\n' then [] :: l :: ls else (c :: l) :: ls

/-- Model of Python `str.splitlines` for the LF/CRLF text the UI pastes
(a trailing `\r` of a CRLF line survives here and is removed by the
subsequent `strip`, exactly as in Python; Python additionally drops a
final empty line, which the handler's empty-line filter drops anyway). -/
def splitlines (s : String) : List String :=
  (splitlinesChars s.data).map (fun l => ⟨l⟩)

/-- The dedup-and-append loop of the `Lưu token` handler: `existing`
starts as `set(tokens)` and each non-member trimmed line is appended and
counted.  Membership in the growing set equals membership in the growing
list, so the set is represented by the list itself. -/
def add_tokens (tokens : List String) (lines : List String) : List String × Nat :=
  let new := (lines.map pyStrip).filter (fun t => t ≠ "")
  new.foldl (fun acc t => if t ∈ acc.1 then acc else (acc.1 ++ [t], acc.2 + 1)) (tokens, 0)

/-- Outcome of one run of the add-tokens button handler: the persisted
list, whether `save_tokens` ran, whether the empty-input warning was
shown, and the reported added-count. -/
structure AddOutcome where
  tokens : List String
  saved : Bool
  warned : Bool
  added : Nat
deriving DecidableEq, Repr

/-- The `Lưu token` button handler: split the text area into lines,
strip, drop empties; warn and change nothing when no line remains,
otherwise run the dedup loop and save. -/
def add_handler (tokens : List String) (input : String) : AddOutcome :=
  let new := ((splitlines input).map pyStrip).filter (fun t => t ≠ "")
  if new.isEmpty then
    { tokens := tokens, saved := false, warned := true, added := 0 }
  else
    let r := add_tokens tokens (splitlines input)
    { tokens := r.1, saved := true, warned := false, added := r.2 }

/-- `tokens.pop(i)` for a non-negative index, as called by the `Xóa`
button handler: removes the element at `i` when in bounds, raises
`IndexError` otherwise. -/
def pop_token (tokens : List String) (i : Nat) : Except String (List String) :=
  if i < tokens.length then .ok (tokens.eraseIdx i) else .error "IndexError"

/-- The `Xóa` button handler: `tokens.pop(i); save_tokens(tokens)`.
Returns the store content that ends up persisted and whether a save
happened; when `pop` raises, the handler aborts before `save_tokens`,
so the store is untouched. -/
def delete_handler (tokens : List String) (i : Nat) : List String × Bool :=
  match pop_token tokens i with
  | .ok ts => (ts, true)
  | .error _ => (tokens, false)

/-! ## Vote client and batch runner

The HTTP POST and each `append_log` file write are external effects; a
`CallEnv` records the outcome the outside world produces for them during
one `run_request_for_token` call.  An exception anywhere that the Python
code does not catch propagates as `Except.error`. -/

/-- The value `run_request_for_token` returns in third position:
`r.json()` when the response parses as JSON, `r.text` otherwise, or
`str(e)` on the exception path. -/
inductive Body where
  | json : String → Body
  | text : String → Body
  | err : String → Body
deriving DecidableEq, Repr

/-- An HTTP response as the code consumes it: status code, raw text, and
the result of `r.json()` (`none` when that call raises). -/
structure Response where
  status_code : Nat
  text : String
  jsonBody : Option String
deriving DecidableEq, Repr

/-- Propositional equality of `Except` outcomes is decidable when it is
on both sides. -/
instance {e a : Type} [DecidableEq e] [DecidableEq a] : DecidableEq (Except e a) := fun x y =>
  match x, y with
  | .ok x, .ok y => if h : x = y then isTrue (by rw [h]) else isFalse (by simp [h])
  | .error x, .error y => if h : x = y then isTrue (by rw [h]) else isFalse (by simp [h])
  | .ok _, .error _ => isFalse (by simp)
  | .error _, .ok _ => isFalse (by simp)

/-- External outcomes for one `run_request_for_token` call: what
`requests.post` does, and whether each of the two possible `append_log`
calls raises (`some e` = raises with message `e`). -/
structure CallEnv where
  post : Except String Response
  postLogExc : Option String
  excLogExc : Option String

/-- One `append_log` call with outcome `exc`: appends the line on
success (timestamps are dropped from the model; each entry is the
message text), raises on failure having written nothing. -/
def append_log (exc : Option String) (log : List String) (text : String) :
    Except String (List String) :=
  match exc with
  | none => .ok (log ++ [text])
  | some e => .error e

/-- Python string slicing `s[:n]` (character-based). -/
def pyTake (s : String) (n : Nat) : String :=
  ⟨s.data.take n⟩

/-- The log message of the success path:
`f"token[:8]={token[:8]}... status={r.status_code} body={r.text[:300]}"`. -/
def successLine (token : String) (r : Response) : String :=
  "token[:8]=" ++ pyTake token 8 ++ "... status=" ++ toString r.status_code
    ++ " body=" ++ pyTake r.text 300

/-- The log message of the exception path:
`f"token[:8]={token[:8]}... EXCEPTION: {e}"`. -/
def excLine (token : String) (e : String) : String :=
  "token[:8]=" ++ pyTake token 8 ++ "... EXCEPTION: " ++ e

/-- `run_request_for_token(token)`: POST, log one line, return
`(True, status, body)`; any exception inside the outer `try` — from the
POST or from the success-path `append_log` — is caught, logged, and
converted to `(False, None, str(e))`.  An exception raised by the
error-path `append_log` itself is uncaught and propagates. -/
def run_request_for_token (env : CallEnv) (token : String) (log : List String) :
    Except String (List String × (Bool × Option Nat × Body)) :=
  match env.post with
  | .ok r =>
    match append_log env.postLogExc log (successLine token r) with
    | .ok log2 =>
      match r.jsonBody with
      | some j => .ok (log2, (true, some r.status_code, .json j))
      | none => .ok (log2, (true, some r.status_code, .text r.text))
    | .error e =>
      match append_log env.excLogExc log (excLine token e) with
      | .ok log2 => .ok (log2, (false, none, .err e))
      | .error e2 => .error e2
  | .error e =>
    match append_log env.excLogExc log (excLine token e) with
    | .ok log2 => .ok (log2, (false, none, .err e))
    | .error e2 => .error e2

/-- One element of the list `run_all_tokens` returns:
`{"token_prefix": t[:8]+"...", "ok": ok, "status": status, "body": body}`. -/
structure RunResult where
  tokenPref : String
  ok : Bool
  status : Option Nat
  body : Body
deriving DecidableEq, Repr

/-- External outcomes for one whole `run_all_tokens` call: a `CallEnv`
per token, plus the outcomes of the batch-start and batch-end
`append_log` calls. -/
structure BatchEnv where
  callEnv : String → CallEnv
  startLogExc : Option String
  endLogExc : Option String

/-- The `for t in tokens` loop of `run_all_tokens`: run each token,
append its result dict. -/
def run_tokens_loop (be : BatchEnv) : List String → List String →
    Except String (List String × List RunResult)
  | [], log => .ok (log, [])
  | t :: ts, log =>
    match run_request_for_token (be.callEnv t) t log with
    | .error e => .error e
    | .ok (log2, (ok, status, body)) =>
      match run_tokens_loop be ts log2 with
      | .error e => .error e
      | .ok (log3, rs) =>
        .ok (log3, { tokenPref := pyTake t 8 ++ "...", ok := ok, status := status,
                     body := body } :: rs)

/-- `run_all_tokens()`: reload the store, log the batch start, run every
token sequentially collecting results in iteration order, log the batch
end, return the results. -/
def run_all_tokens (be : BatchEnv) (file : Option String) (log : List String) :
    Except String (List String × List RunResult) :=
  let tokens := load_tokens file
  match append_log be.startLogExc log ("RUN ALL start tokens_count=" ++ toString tokens.length) with
  | .error e => .error e
  | .ok log1 =>
    match run_tokens_loop be tokens log1 with
    | .error e => .error e
    | .ok (log2, results) =>
      match append_log be.endLogExc log2 "RUN ALL end" with
      | .error e => .error e
      | .ok log3 => .ok (log3, results)

/-- No `append_log` call raises during the batch: the normal situation,
in which the Python code's own error handling is the only control
flow. -/
def goodLogs (be : BatchEnv) : Prop :=
  be.startLogExc = none ∧ be.endLogExc = none ∧
    ∀ t, (be.callEnv t).postLogExc = none ∧ (be.callEnv t).excLogExc = none

/-- The `(ok, status, body)` triple one call produces from its own POST
outcome alone (logging succeeding). -/
def callOutcome (env : CallEnv) : Bool × Option Nat × Body :=
  match env.post with
  | .ok r =>
    (true, some r.status_code,
      match r.jsonBody with | some j => .json j | none => .text r.text)
  | .error e => (false, none, .err e)

/-- The result dict one token produces from its own POST outcome alone. -/
def resultFor (be : BatchEnv) (t : String) : RunResult :=
  { tokenPref := pyTake t 8 ++ "...", ok := (callOutcome (be.callEnv t)).1,
    status := (callOutcome (be.callEnv t)).2.1,
    body := (callOutcome (be.callEnv t)).2.2 }

/-! ## Scheduler

`scheduler_loop` polls `schedule.run_pending()` every 5 seconds.  The
`schedule` package is a third-party dependency, so its daily job is
modelled from the spec; time is seconds on a discrete clock and a
calendar day is `86400` seconds. -/

/-- Seconds per calendar day. -/
def daySecs : Nat := 86400

/-- `SCHEDULE_TIME = "02:00"` as seconds past midnight. -/
def SCHEDULE_TIME_secs : Nat := 2 * 3600

/-- The scheduler's whole state: the absolute time of the next firing. -/
structure SchedJob where
  nextRun : Nat
deriving DecidableEq, Repr

/-- Modelled from the spec: `schedule.every().day.at(s)` — the missing
third-party scheduling state.  The first firing is at today's
time-of-day `s` if that instant is still ahead, else at tomorrow's. -/
def schedule_day_at (s now : Nat) : SchedJob :=
  if now % daySecs < s then ⟨(now / daySecs) * daySecs + s⟩
  else ⟨(now / daySecs + 1) * daySecs + s⟩

/-- Modelled from the spec: `schedule.run_pending()` for the single
daily job — fires iff the due time has been reached, then reschedules
to the day after the firing at time-of-day `s`; otherwise no-op. -/
def run_pending (s : Nat) (j : SchedJob) (now : Nat) : Bool × SchedJob :=
  if j.nextRun ≤ now then (true, ⟨(now / daySecs + 1) * daySecs + s⟩) else (false, j)

/-- The polling loop of `scheduler_loop(stop_event)` run over a given
sequence of poll instants (one per 5-second wakeup while the process is
alive): returns the instants at which `job_run_all` was invoked and the
final job state. -/
def scheduler_loop (s : Nat) (j : SchedJob) : List Nat → List Nat × SchedJob
  | [] => ([], j)
  | now :: rest =>
    let p := run_pending s j now
    let q := scheduler_loop s p.2 rest
    (if p.1 then now :: q.1 else q.1, q.2)

/-! ## Helper lemmas -/

/-- With non-empty trimmed input, the add loop on a single line either
skips a duplicate or appends and counts one. -/
lemma add_tokens_single (s : List String) (t : String)
    (h1 : pyStrip t = t) (h2 : t ≠ "") :
    add_tokens s [t] = if t ∈ s then (s, 0) else (s ++ [t], 1) := by
  simp [add_tokens, h1, h2]

/-- With failure-free logging, one `run_request_for_token` call returns
normally, appends exactly one log line, and yields the token's own
outcome. -/
lemma run_request_for_token_good (env : CallEnv) (t : String) (log : List String)
    (h1 : env.postLogExc = none) (h2 : env.excLogExc = none) :
    ∃ line, run_request_for_token env t log = .ok (log ++ [line], callOutcome env) := by
  cases hp : env.post with
  | ok r =>
    refine ⟨successLine t r, ?_⟩
    cases hj : r.jsonBody <;>
      simp [run_request_for_token, hp, h1, append_log, callOutcome, hj]
  | error e =>
    refine ⟨excLine t e, ?_⟩
    simp [run_request_for_token, hp, h2, append_log, callOutcome]

/-- With failure-free logging, the batch loop returns one result per
token, in iteration order, each computed from that token's own POST
outcome. -/
lemma run_tokens_loop_good (be : BatchEnv)
    (h : ∀ t, (be.callEnv t).postLogExc = none ∧ (be.callEnv t).excLogExc = none) :
    ∀ (ts : List String) (log : List String),
      ∃ log2, run_tokens_loop be ts log = .ok (log2, ts.map (resultFor be)) := by
  intro ts
  induction ts with
  | nil => exact fun log => ⟨log, rfl⟩
  | cons t ts ih =>
    intro log
    obtain ⟨line, hline⟩ :=
      run_request_for_token_good (be.callEnv t) t log (h t).1 (h t).2
    obtain ⟨log2, hloop⟩ := ih (log ++ [line])
    refine ⟨log2, ?_⟩
    simp [run_tokens_loop, hline, hloop, resultFor]

/-- With failure-free logging, `run_all_tokens` returns normally with
one result per stored token in stored order. -/
lemma run_all_tokens_good (be : BatchEnv) (h : goodLogs be) (file : Option String)
    (log : List String) :
    ∃ log2, run_all_tokens be file log =
      .ok (log2, (load_tokens file).map (resultFor be)) := by
  obtain ⟨hs, he, hc⟩ := h
  obtain ⟨log2, hloop⟩ := run_tokens_loop_good be hc (load_tokens file)
    (log ++ ["RUN ALL start tokens_count=" ++ toString (load_tokens file).length])
  exact ⟨log2 ++ ["RUN ALL end"],
    by simp [run_all_tokens, hs, he, append_log, hloop]⟩

/-! ## Claims -/

/-- Claim C5: `load()` never fails with an error to the caller — an
absent token file and unparsable content both yield the empty list
(silent recovery), and parsable content yields the persisted list.
(`loads` models `json.loads` restricted to arrays of strings, the only
shape the store ever writes.) -/
theorem load_tokens_never_fails (c : String) (l : List String) :
    load_tokens none = [] ∧
    (loads c = none → load_tokens (some c) = []) ∧
    (loads c = some l → load_tokens (some c) = l) := by
  refine ⟨rfl, fun h => ?_, fun h => ?_⟩ <;> simp [load_tokens, h]

/-- Witness for C5 at concrete file states: absent file, garbage
content, and a canonical one-token file. -/
theorem load_tokens_never_fails_witness :
    load_tokens none = [] ∧ load_tokens (some "oops") = [] ∧
    load_tokens (some "[\n  \"a\"\n]") = ["a"] :=
  ⟨(load_tokens_never_fails "oops" []).1,
   (load_tokens_never_fails "oops" []).2.1 (by decide),
   (load_tokens_never_fails "[\n  \"a\"\n]" ["a"]).2.2 (by decide)⟩

/-- Claim C9: submitting text whose every line trims to nothing is
rejected with the user-visible warning and changes no state: the store
is unchanged, `save_tokens` is not called, and the added count is 0. -/
theorem add_handler_rejects_blank_input (tokens : List String) (input : String)
    (h : ∀ l ∈ splitlines input, pyStrip l = "") :
    add_handler tokens input =
      { tokens := tokens, saved := false, warned := true, added := 0 } := by
  have hnil : ((splitlines input).map pyStrip).filter (fun t => t ≠ "") = [] := by
    rw [List.filter_eq_nil_iff]
    intro t ht
    simp only [List.mem_map] at ht
    obtain ⟨l, hl, rfl⟩ := ht
    simp [h l hl]
  simp [add_handler, hnil]
  exact h

/-- Witness for C9 at the spec's concrete input `"   \n  "`. -/
theorem add_handler_rejects_blank_input_witness :
    add_handler ["a"] "   \n  " =
      { tokens := ["a"], saved := false, warned := true, added := 0 } :=
  add_handler_rejects_blank_input ["a"] "   \n  " (by decide)

/-- Claim C3: adding a (trimmed, non-empty) token is idempotent under
duplicates on a store satisfying the uniqueness invariant: after one
add the store holds exactly one copy of `t`, and a second add is
silently skipped — it changes nothing and reports an added count of 0. -/
theorem add_tokens_idempotent (s : List String) (t : String)
    (h1 : pyStrip t = t) (h2 : t ≠ "") (h3 : s.count t ≤ 1) :
    (add_tokens s [t]).1.count t = 1 ∧
    add_tokens (add_tokens s [t]).1 [t] = ((add_tokens s [t]).1, 0) := by
  rw [add_tokens_single s t h1 h2]
  by_cases hm : t ∈ s
  · simp only [if_pos hm]
    have hc : s.count t = 1 :=
      Nat.le_antisymm h3 (List.count_pos_iff.mpr hm)
    exact ⟨hc, by rw [add_tokens_single s t h1 h2, if_pos hm]⟩
  · simp only [if_neg hm]
    have hc : s.count t = 0 := List.count_eq_zero.mpr hm
    constructor
    · simp [List.count_append, hc]
    · rw [add_tokens_single (s ++ [t]) t h1 h2,
        if_pos (by simp : t ∈ s ++ [t])]

/-- Witness for C3 at a concrete store and token. -/
theorem add_tokens_idempotent_witness :
    (add_tokens ["a"] ["b"]).1.count "b" = 1 ∧
    add_tokens (add_tokens ["a"] ["b"]).1 ["b"] = ((add_tokens ["a"] ["b"]).1, 0) :=
  add_tokens_idempotent ["a"] "b" (by decide) (by decide) (by decide)

/-- Claim C7: deleting at index `n` on a list of length `n` is rejected
(`pop` raises before `save_tokens` runs, so the store is untouched),
and an in-bounds index removes exactly the element at that position,
leaving everything before it and shifting everything after it. -/
theorem delete_bounds_safe (tokens : List String) :
    delete_handler tokens tokens.length = (tokens, false) ∧
    ∀ i, i < tokens.length →
      delete_handler tokens i = (tokens.take i ++ tokens.drop (i + 1), true) := by
  constructor
  · simp [delete_handler, pop_token]
  · intro i hi
    simp [delete_handler, pop_token, hi, List.eraseIdx_eq_take_drop_succ]

/-- Witness for C7 on a concrete two-token store: the out-of-bounds
index 2 changes nothing, index 1 deletes exactly the second token. -/
theorem delete_bounds_safe_witness :
    delete_handler ["a", "b"] 2 = (["a", "b"], false) ∧
    delete_handler ["a", "b"] 1 = (["a"], true) :=
  ⟨(delete_bounds_safe ["a", "b"]).1,
   (delete_bounds_safe ["a", "b"]).2 1 (by decide)⟩

/-- Claim C10: when the HTTP POST itself returns a response but the
success-path `append_log` raises (and the error-path `append_log`
succeeds), `run_request_for_token` reports failure: ok=false, null
status, and the log error's text as body — even though the vote request
succeeded remotely. -/
theorem run_request_log_write_failure (token : String) (r : Response)
    (e : String) (log : List String) :
    run_request_for_token ⟨.ok r, some e, none⟩ token log =
      .ok (log ++ [excLine token e], (false, none, .err e)) := rfl

/-- Claim C2: with failure-free logging, `run_all` returns exactly one
RunResult per token in the stored token list, in the stored order,
regardless of whether each token's own request succeeds or fails. -/
theorem run_all_tokens_order_preserved (be : BatchEnv) (file : Option String)
    (log : List String) (h : goodLogs be) :
    ∃ log2, run_all_tokens be file log =
        .ok (log2, (load_tokens file).map (resultFor be)) ∧
      ((load_tokens file).map (resultFor be)).length = (load_tokens file).length := by
  obtain ⟨log2, h2⟩ := run_all_tokens_good be h file log
  exact ⟨log2, h2, by simp⟩

/-- Claim C1: with failure-free logging, a token whose POST raises gets
a result with ok=false, and the batch continues: every token of the
stored list still gets a result reflecting its own independent
outcome. -/
theorem run_all_tokens_isolation (be : BatchEnv) (file : Option String)
    (log : List String) (i : Nat) (e : String) (h : goodLogs be)
    (hi : i < (load_tokens file).length)
    (hfail : (be.callEnv ((load_tokens file)[i])).post = .error e) :
    ∃ log2, run_all_tokens be file log =
        .ok (log2, (load_tokens file).map (resultFor be)) ∧
      ((load_tokens file).map (resultFor be))[i]? =
        some { tokenPref := pyTake ((load_tokens file)[i]) 8 ++ "...", ok := false,
               status := none, body := .err e } ∧
      ∀ j (hj : j < (load_tokens file).length),
        ((load_tokens file).map (resultFor be))[j]? =
          some (resultFor be ((load_tokens file)[j])) := by
  obtain ⟨log2, h2⟩ := run_all_tokens_good be h file log
  refine ⟨log2, h2, ?_, fun j hj => ?_⟩
  · simp [List.getElem?_map, List.getElem?_eq_getElem hi, resultFor, callOutcome, hfail]
  · simp [List.getElem?_map, List.getElem?_eq_getElem hj]

/-- A concrete batch environment for the witnesses: token "t2" fails
with a network exception, every other token succeeds with status 200;
no log write ever fails. -/
def demoEnv : BatchEnv where
  callEnv t :=
    if t = "t2" then ⟨.error "boom", none, none⟩
    else ⟨.ok ⟨200, "ok", none⟩, none, none⟩
  startLogExc := none
  endLogExc := none

/-- The demo environment's logging never fails. -/
lemma demoEnv_good : goodLogs demoEnv := by
  refine ⟨rfl, rfl, fun t => ?_⟩
  by_cases h : t = "t2" <;> simp [demoEnv, h]

set_option maxRecDepth 8192 in
/-- Witness for C1 on the concrete store ["t1","t2","t3"] with "t2"
failing. -/
theorem run_all_tokens_isolation_witness :
    ∃ log2, run_all_tokens demoEnv (some (save_tokens ["t1", "t2", "t3"])) [] =
        .ok (log2, (load_tokens (some (save_tokens ["t1", "t2", "t3"]))).map (resultFor demoEnv)) ∧
      ((load_tokens (some (save_tokens ["t1", "t2", "t3"]))).map (resultFor demoEnv))[1]? =
        some { tokenPref := pyTake ((load_tokens (some (save_tokens ["t1", "t2", "t3"]))).get ⟨1, by decide⟩) 8 ++ "...",
               ok := false, status := none, body := .err "boom" } ∧
      ∀ j (hj : j < (load_tokens (some (save_tokens ["t1", "t2", "t3"]))).length),
        ((load_tokens (some (save_tokens ["t1", "t2", "t3"]))).map (resultFor demoEnv))[j]? =
          some (resultFor demoEnv ((load_tokens (some (save_tokens ["t1", "t2", "t3"])))[j])) :=
  run_all_tokens_isolation demoEnv (some (save_tokens ["t1", "t2", "t3"])) [] 1 "boom"
    demoEnv_good (by decide) (by decide)

/-- Witness for C2 on the same concrete store. -/
theorem run_all_tokens_order_preserved_witness :
    ∃ log2, run_all_tokens demoEnv (some (save_tokens ["t1", "t2", "t3"])) [] =
        .ok (log2, (load_tokens (some (save_tokens ["t1", "t2", "t3"]))).map (resultFor demoEnv)) ∧
      ((load_tokens (some (save_tokens ["t1", "t2", "t3"]))).map (resultFor demoEnv)).length =
        (load_tokens (some (save_tokens ["t1", "t2", "t3"]))).length :=
  run_all_tokens_order_preserved demoEnv (some (save_tokens ["t1", "t2", "t3"])) []
    demoEnv_good

set_option maxRecDepth 8192 in
/-- Claim C6 is false as stated: the per-token log line embeds
`token[:8]`, and for a token of 8 or fewer characters that slice is the
entire token — here the full token "secret12" appears in the log line
of a successful invocation. -/
theorem full_token_logged_cex :
    run_request_for_token ⟨.ok ⟨200, "", none⟩, none, none⟩ "secret12" [] =
      .ok (["token[:8]=secret12... status=200 body="], (true, some 200, .text "")) ∧
    "secret12".data <:+: "token[:8]=secret12... status=200 body=".data :=
  ⟨by decide, ⟨"token[:8]=".data, "... status=200 body=".data, by decide⟩⟩

/-- Claim C6 amended: each per-token log line consists of the first 8
characters of the token plus an ellipsis, the status, and the response
body truncated to 300 characters; the whole log output of an invocation
depends on the token only through its first 8 characters, so no more of
the token than that prefix ever reaches the log (a token of at most 8
characters therefore appears whole — the counterexample above). -/
theorem log_depends_only_on_token_head (env : CallEnv) (t1 t2 : String)
    (log : List String) (r : Response) (h : pyTake t1 8 = pyTake t2 8) :
    successLine t1 r = "token[:8]=" ++ pyTake t1 8 ++ "... status=" ++
      toString r.status_code ++ " body=" ++ pyTake r.text 300 ∧
    (run_request_for_token env t1 log).map Prod.fst =
      (run_request_for_token env t2 log).map Prod.fst := by
  refine ⟨rfl, ?_⟩
  cases hp : env.post with
  | ok r2 =>
    cases h1 : env.postLogExc with
    | none =>
      cases hj : r2.jsonBody <;>
        simp [run_request_for_token, hp, h1, append_log, successLine, h, hj]
    | some e =>
      cases h2 : env.excLogExc <;>
        simp [run_request_for_token, hp, h1, h2, append_log, excLine, h]
  | error e =>
    cases h2 : env.excLogExc <;>
      simp [run_request_for_token, hp, h2, append_log, excLine, h]

/-- Witness for the amended C6: two tokens sharing their first 8
characters produce identical log output. -/
theorem log_depends_only_on_token_head_witness :
    successLine "secret12ABC" ⟨200, "resp", none⟩ = "token[:8]=" ++
      pyTake "secret12ABC" 8 ++ "... status=" ++ toString (200 : Nat) ++ " body=" ++
      pyTake "resp" 300 ∧
    (run_request_for_token ⟨.ok ⟨200, "resp", none⟩, none, none⟩ "secret12ABC" []).map Prod.fst =
      (run_request_for_token ⟨.ok ⟨200, "resp", none⟩, none, none⟩ "secret12XYZ" []).map Prod.fst :=
  log_depends_only_on_token_head ⟨.ok ⟨200, "resp", none⟩, none, none⟩
    "secret12ABC" "secret12XYZ" [] ⟨200, "resp", none⟩ (by decide)

/-! ## Round-trip of the token-file serialization -/

/-- Lower-case hex digits decode back to their value. -/
lemma hexVal_hexDigit : ∀ n, n < 16 → hexVal (hexDigit n) = some n := by decide

/-- An unescaped ordinary character is consumed as itself. -/
lemma parseStrBody_reg (c : Char) (X : List Char)
    (h1 : c ≠ '"') (h2 : c ≠ '\\') (h3 : ¬ c.toNat < 32) :
    parseStrBody (c :: X) = consParsed c (parseStrBody X) := by
  rw [parseStrBody.eq_def]
  simp [h1, h2, h3]

/-- The escape sequence `json.dumps` emits for any character is decoded
back to that character by the string-literal parser. -/
lemma parseStrBody_escapeChar (c : Char) (X : List Char) :
    parseStrBody (escapeChar c ++ X) = consParsed c (parseStrBody X) := by
  by_cases hq : c = '"'
  · subst hq
    have hesc : escapeChar '"' ++ X = '\\' :: '"' :: X := by simp [escapeChar]
    rw [hesc, parseStrBody.eq_def]
    simp
  by_cases hb : c = '\\'
  · subst hb
    have hesc : escapeChar '\\' ++ X = '\\' :: '\\' :: X := by simp [escapeChar]
    rw [hesc, parseStrBody.eq_def]
    simp
  by_cases hc : c.toNat < 32
  · by_cases hn : c = '\n'
    · subst hn
      have hesc : escapeChar '\n' ++ X = '\\' :: 'n' :: X := by simp [escapeChar]
      rw [hesc, parseStrBody.eq_def]
      simp
    by_cases ht : c = '\t'
    · subst ht
      have hesc : escapeChar '\t' ++ X = '\\' :: 't' :: X := by simp [escapeChar]
      rw [hesc, parseStrBody.eq_def]
      simp
    by_cases hr : c = '\r'
    · subst hr
      have hesc : escapeChar '\r' ++ X = '\\' :: 'r' :: X := by simp [escapeChar]
      rw [hesc, parseStrBody.eq_def]
      simp
    by_cases h8 : c.toNat = 8
    · have hc8 : c = Char.ofNat 8 := by rw [← h8, Char.ofNat_toNat]
      subst hc8
      have hesc : escapeChar (Char.ofNat 8) ++ X = '\\' :: 'b' :: X := by
        simp [escapeChar, Char.ofNat]
      rw [hesc, parseStrBody.eq_def]
      simp
    by_cases h12 : c.toNat = 12
    · have hc12 : c = Char.ofNat 12 := by rw [← h12, Char.ofNat_toNat]
      subst hc12
      have hesc : escapeChar (Char.ofNat 12) ++ X = '\\' :: 'f' :: X := by
        simp [escapeChar, Char.ofNat]
      rw [hesc, parseStrBody.eq_def]
      simp
    · have hch : escapeChar c ++ X = '\\' :: 'u' :: '0' :: '0' ::
          hexDigit (c.toNat / 16) :: hexDigit (c.toNat % 16) :: X := by
        simp [escapeChar, hq, hb, hc, hn, ht, hr, h8, h12]
      have hdiv : hexVal (hexDigit (c.toNat / 16)) = some (c.toNat / 16) :=
        hexVal_hexDigit _ (by omega)
      have hmod : hexVal (hexDigit (c.toNat % 16)) = some (c.toNat % 16) :=
        hexVal_hexDigit _ (by omega)
      have h0 : hexVal '0' = some 0 := by decide
      rw [hch, parseStrBody.eq_def]
      simp only [reduceIte, h0, hdiv, hmod]
      simp only [Char.reduceEq, reduceIte]
      have harith : ∀ d1 d2, ((0 * 16 + 0) * 16 + d1) * 16 + d2 = d1 * 16 + d2 := by omega
      rw [harith]
      have hdm : c.toNat / 16 * 16 + c.toNat % 16 = c.toNat := by omega
      rw [hdm, Char.ofNat_toNat]
  · have hch : escapeChar c ++ X = c :: X := by simp [escapeChar, hq, hb, hc]
    rw [hch]
    exact parseStrBody_reg c X hq hb hc

/-- A whole escaped string body followed by the closing quote parses
back to the original characters. -/
lemma parseStrBody_escapeStr (s X : List Char) :
    parseStrBody (escapeStr s ++ '"' :: X) = some (s, X) := by
  induction s with
  | nil =>
    have h : escapeStr [] ++ '"' :: X = '"' :: X := by simp [escapeStr]
    rw [h, parseStrBody.eq_def]
    simp
  | cons c s ih =>
    have hstep : escapeStr (c :: s) ++ '"' :: X =
        escapeChar c ++ (escapeStr s ++ '"' :: X) := by
      simp [escapeStr]
    rw [hstep, parseStrBody_escapeChar, ih]
    rfl

/-- A serialized string literal parses back to the original string. -/
lemma parseStr_quoteStr (s : String) (X : List Char) :
    parseStr (quoteStr s ++ X) = some (s.data, X) := by
  have hshape : quoteStr s ++ X = '"' :: (escapeStr s.data ++ '"' :: X) := by
    simp [quoteStr]
  rw [hshape, parseStr]
  simp only [reduceIte]
  exact parseStrBody_escapeStr s.data X

/-- Serialization adds at least one character per element. -/
lemma dumpsRest_length (ss : List String) : ss.length ≤ (dumpsRest ss).length := by
  induction ss with
  | nil => simp [dumpsRest]
  | cons s2 ss2 ih =>
    simp only [dumpsRest, List.length_cons, List.length_append]
    omega

/-- Skipping whitespace stops at the opening quote of a serialized
string literal. -/
lemma skipWs_quoteStr (s : String) (X : List Char) :
    skipWs (quoteStr s ++ X) = quoteStr s ++ X := by
  have hq : quoteStr s ++ X = '"' :: (escapeStr s.data ++ '"' :: X) := by
    simp [quoteStr]
  rw [hq, skipWs.eq_def]
  simp [jsonWs]

/-- The serialized elements of a non-empty list parse back to that
list, consuming the whole input, for any fuel above the element
count. -/
lemma parseElems_dumpsRest (fuel : Nat) :
    ∀ (s : String) (ss : List String), ss.length < fuel →
      parseElems fuel (quoteStr s ++ dumpsRest ss) = some (s :: ss, []) := by
  induction fuel with
  | zero => intro s ss h; omega
  | succ fuel ih =>
    intro s ss h
    cases ss with
    | nil =>
      show parseElems (fuel + 1) (quoteStr s ++ ['\n', ']']) = some ([s], [])
      have hskip : skipWs ['\n', ']'] = [']'] := by simp [skipWs, jsonWs]
      rw [parseElems.eq_def]
      simp only [parseStr_quoteStr, hskip]
      simp
    | cons s2 ss2 =>
      have hshape : quoteStr s ++ dumpsRest (s2 :: ss2) =
          quoteStr s ++ (',' :: '\n' :: ' ' :: ' ' :: (quoteStr s2 ++ dumpsRest ss2)) := by
        simp [dumpsRest]
      have hskip : skipWs (',' :: '\n' :: ' ' :: ' ' :: (quoteStr s2 ++ dumpsRest ss2)) =
          ',' :: '\n' :: ' ' :: ' ' :: (quoteStr s2 ++ dumpsRest ss2) := by
        rw [skipWs.eq_def]
        simp [jsonWs]
      have hskip2 : skipWs ('\n' :: ' ' :: ' ' :: (quoteStr s2 ++ dumpsRest ss2)) =
          quoteStr s2 ++ dumpsRest ss2 := by
        simp [skipWs, jsonWs, skipWs_quoteStr, quoteStr]
      have hih : parseElems fuel (quoteStr s2 ++ dumpsRest ss2) = some (s2 :: ss2, []) :=
        ih s2 ss2 (by simpa using Nat.lt_of_succ_lt_succ h)
      rw [hshape, parseElems.eq_def]
      simp only [parseStr_quoteStr, hskip, hskip2, hih]
      simp

/-- Loading back what `save_tokens` wrote recovers exactly the saved
list. -/
lemma loads_save_tokens (l : List String) : loads (save_tokens l) = some l := by
  cases l with
  | nil => decide
  | cons s ss =>
    have hdata : (save_tokens (s :: ss)).data =
        '[' :: '\n' :: ' ' :: ' ' :: (quoteStr s ++ dumpsRest ss) := rfl
    have hcons : quoteStr s ++ dumpsRest ss =
        '"' :: (escapeStr s.data ++ '"' :: dumpsRest ss) := by simp [quoteStr]
    have hskipA : skipWs (save_tokens (s :: ss)).data =
        '[' :: ('\n' :: ' ' :: ' ' :: (quoteStr s ++ dumpsRest ss)) := by
      rw [hdata, skipWs.eq_def]
      simp [jsonWs]
    have hskipB : skipWs ('\n' :: ' ' :: ' ' :: (quoteStr s ++ dumpsRest ss)) =
        '"' :: (escapeStr s.data ++ '"' :: dumpsRest ss) := by
      simp [skipWs, jsonWs, skipWs_quoteStr, quoteStr]
    have hlen : ss.length < (save_tokens (s :: ss)).data.length + 1 := by
      have h1 := dumpsRest_length ss
      rw [hdata]
      simp only [List.length_cons, List.length_append]
      omega
    have hp : parseElems ((save_tokens (s :: ss)).data.length + 1)
        (quoteStr s ++ dumpsRest ss) = some (s :: ss, []) :=
      parseElems_dumpsRest _ s ss hlen
    rw [loads.eq_def, hskipA]
    simp only [reduceIte, hskipB, Char.reduceEq]
    rw [← hcons, hp]
    simp [finishParse, skipWs]

/-- Claim C4 is false as stated: `["a"]` is valid token-list file
content (it loads as the list `["a"]`), but `save(load())` rewrites it
in the `indent=2` rendering — bytes different from the original
content. -/
theorem save_load_not_identity_cex :
    loads "[\"a\"]" = some ["a"] ∧
    save_tokens (load_tokens (some "[\"a\"]")) = "[\n  \"a\"\n]" ∧
    save_tokens (load_tokens (some "[\"a\"]")) ≠ "[\"a\"]" :=
  ⟨by decide, by decide, by decide⟩

/-- Claim C4 amended: for file content in the canonical serialized form
that `save_tokens` itself writes — the only form the app ever persists —
`save(load())` is a no-op: loading returns exactly the saved list, and
re-saving writes byte-identical file content. -/
theorem save_load_canonical_roundtrip (l : List String) :
    load_tokens (some (save_tokens l)) = l ∧
    save_tokens (load_tokens (some (save_tokens l))) = save_tokens l := by
  have h := loads_save_tokens l
  exact ⟨by simp [load_tokens, h], by simp [load_tokens, h]⟩

/-! ## Scheduler lemmas -/

/-- While the next firing is still ahead of every poll, nothing fires
and the job state is unchanged. -/
lemma scheduler_loop_quiet (s N : Nat) :
    ∀ polls, (∀ p ∈ polls, p < N) →
      scheduler_loop s ⟨N⟩ polls = ([], ⟨N⟩) := by
  intro polls
  induction polls with
  | nil => intro _; rfl
  | cons p rest ih =>
    intro h
    have hp : p < N := h p (List.mem_cons_self p rest)
    have hnot : ¬ (N ≤ p) := by omega
    have hrest := ih (fun q hq => h q (List.mem_cons_of_mem p hq))
    simp [scheduler_loop, run_pending, hnot, hrest]

/-- Within one day whose polls stay inside that day, the first poll at
or after the due instant fires — exactly once — and the job is
rescheduled to the next day's instant. -/
lemma scheduler_loop_one_day (s d : Nat) :
    ∀ polls, (∀ p ∈ polls, d * daySecs ≤ p ∧ p < (d + 1) * daySecs) →
      (∃ p ∈ polls, d * daySecs + s ≤ p) →
      ∃ q ∈ polls, scheduler_loop s ⟨d * daySecs + s⟩ polls =
        ([q], ⟨(d + 1) * daySecs + s⟩) := by
  intro polls
  induction polls with
  | nil =>
    rintro _ ⟨p, hp, _⟩
    cases hp
  | cons p rest ih =>
    intro hin hex
    by_cases hdue : d * daySecs + s ≤ p
    · have hb := hin p (List.mem_cons_self p rest)
      have hday : p / daySecs = d := Nat.div_eq_of_lt_le hb.1 hb.2
      have hall : ∀ q ∈ rest, q < (d + 1) * daySecs + s := fun q hq =>
        Nat.lt_of_lt_of_le (hin q (List.mem_cons_of_mem p hq)).2 (Nat.le_add_right _ s)
      have hquiet := scheduler_loop_quiet s ((d + 1) * daySecs + s) rest hall
      refine ⟨p, List.mem_cons_self p rest, ?_⟩
      simp [scheduler_loop, run_pending, hdue, hday, hquiet]
    · obtain ⟨q, hq, hqge⟩ := hex
      have hq' : q ∈ rest := by
        cases hq with
        | head => exact absurd hqge hdue
        | tail _ h => exact h
      obtain ⟨q2, hq2, heq⟩ :=
        ih (fun r hr => hin r (List.mem_cons_of_mem p hr)) ⟨q, hq', hqge⟩
      refine ⟨q2, List.mem_cons_of_mem p hq2, ?_⟩
      simp [scheduler_loop, run_pending, hdue, heq]

/-- Splitting a poll sequence: the fires of the whole run are the fires
of the first part followed by the fires of the second part started from
the intermediate job state. -/
lemma scheduler_loop_append (s : Nat) (xs : List Nat) :
    ∀ (j : SchedJob) (ys : List Nat),
      scheduler_loop s j (xs ++ ys) =
        ((scheduler_loop s j xs).1 ++ (scheduler_loop s (scheduler_loop s j xs).2 ys).1,
          (scheduler_loop s (scheduler_loop s j xs).2 ys).2) := by
  induction xs with
  | nil => intro j ys; simp [scheduler_loop]
  | cons x xs ih =>
    intro j ys
    simp only [List.cons_append, scheduler_loop, List.append_eq]
    rw [ih]
    split <;> simp

/-- Running the scheduler over day-grouped polls, one covered day after
another: one fire per block, each taken from its own block. -/
lemma scheduler_loop_blocks (s : Nat) :
    ∀ (blocks : List (List Nat)) (d0 : Nat),
      (∀ i (hi : i < blocks.length), ∀ p ∈ blocks[i],
        (d0 + i) * daySecs ≤ p ∧ p < (d0 + i + 1) * daySecs) →
      (∀ i (hi : i < blocks.length), ∃ p ∈ blocks[i], (d0 + i) * daySecs + s ≤ p) →
      ∃ fires, scheduler_loop s ⟨d0 * daySecs + s⟩ blocks.flatten =
          (fires, ⟨(d0 + blocks.length) * daySecs + s⟩) ∧
        List.Forall₂ (fun q b => q ∈ b) fires blocks := by
  intro blocks
  induction blocks with
  | nil => intro d0 _ _; exact ⟨[], by simp [scheduler_loop], List.Forall₂.nil⟩
  | cons b bs ih =>
    intro d0 hin hcover
    have hin0 : ∀ p ∈ b, (d0 + 0) * daySecs ≤ p ∧ p < (d0 + 0 + 1) * daySecs := by
      intro p hp
      exact hin 0 (by simp) p (by simpa using hp)
    have hcover0 := hcover 0 (by simp)
    obtain ⟨q, hqmem, hday⟩ := scheduler_loop_one_day s d0 b
      (by simpa using hin0) (by simpa using hcover0)
    have hinbs : ∀ i (hi : i < bs.length), ∀ p ∈ bs[i],
        (d0 + 1 + i) * daySecs ≤ p ∧ p < (d0 + 1 + i + 1) * daySecs := by
      intro i hi p hp
      have h := hin (i + 1) (by simpa using Nat.succ_lt_succ hi) p (by simpa using hp)
      have e1 : d0 + (i + 1) = d0 + 1 + i := by omega
      rw [e1] at h
      exact h
    have hcoverbs : ∀ i (hi : i < bs.length), ∃ p ∈ bs[i],
        (d0 + 1 + i) * daySecs + s ≤ p := by
      intro i hi
      have h := hcover (i + 1) (by simpa using Nat.succ_lt_succ hi)
      have e1 : d0 + (i + 1) = d0 + 1 + i := by omega
      rw [e1] at h
      simpa using h
    obtain ⟨fires, hrun, hfa⟩ := ih (d0 + 1) hinbs hcoverbs
    refine ⟨q :: fires, ?_, List.Forall₂.cons hqmem hfa⟩
    have hflat : (b :: bs).flatten = b ++ bs.flatten := by simp
    rw [hflat, scheduler_loop_append, hday]
    simp only [hrun]
    have e3 : d0 + 1 + bs.length = d0 + (bs.length + 1) := by omega
    simp [e3]

/-- Each fire of a day-grouped run lives on a day at or after the base
day. -/
lemma fires_day_lower :
    ∀ (fires : List Nat) (blocks : List (List Nat)) (d0 : Nat),
      List.Forall₂ (fun q b => q ∈ b) fires blocks →
      (∀ i (hi : i < blocks.length), ∀ p ∈ blocks[i],
        (d0 + i) * daySecs ≤ p ∧ p < (d0 + i + 1) * daySecs) →
      ∀ q ∈ fires, d0 ≤ q / daySecs := by
  intro fires blocks
  induction fires generalizing blocks with
  | nil => intro d0 _ _ q hq; cases hq
  | cons f fs ih =>
    intro d0 hfa hin q hq
    cases hfa with
    | cons hf htail =>
      rename_i b bs
      cases hq with
      | head =>
        have hb := hin 0 (by simp) f (by simpa using hf)
        have hd : f / daySecs = d0 + 0 := Nat.div_eq_of_lt_le hb.1 hb.2
        omega
      | tail _ hmem =>
        have hinbs : ∀ i (hi : i < bs.length), ∀ p ∈ bs[i],
            (d0 + 1 + i) * daySecs ≤ p ∧ p < (d0 + 1 + i + 1) * daySecs := by
          intro i hi p hp
          have h := hin (i + 1) (by simpa using Nat.succ_lt_succ hi) p (by simpa using hp)
          have e1 : d0 + (i + 1) = d0 + 1 + i := by omega
          rw [e1] at h
          exact h
        have := ih bs (d0 + 1) htail hinbs q hmem
        omega

/-- One fire lands on each covered day: filtering the fires by calendar
day yields exactly one fire for every block. -/
lemma fires_filter_count :
    ∀ (fires : List Nat) (blocks : List (List Nat)) (d0 : Nat),
      List.Forall₂ (fun q b => q ∈ b) fires blocks →
      (∀ i (hi : i < blocks.length), ∀ p ∈ blocks[i],
        (d0 + i) * daySecs ≤ p ∧ p < (d0 + i + 1) * daySecs) →
      ∀ i, i < blocks.length →
        (fires.filter (fun q => decide (q / daySecs = d0 + i))).length = 1 := by
  intro fires blocks
  induction fires generalizing blocks with
  | nil =>
    intro d0 hfa _ i hi
    cases hfa
    simp at hi
  | cons f fs ih =>
    intro d0 hfa hin i hi
    cases hfa with
    | cons hf htail =>
      rename_i b bs
      have hinbs : ∀ i2 (hi2 : i2 < bs.length), ∀ p ∈ bs[i2],
          (d0 + 1 + i2) * daySecs ≤ p ∧ p < (d0 + 1 + i2 + 1) * daySecs := by
        intro i2 hi2 p hp
        have h := hin (i2 + 1) (by simpa using Nat.succ_lt_succ hi2) p (by simpa using hp)
        have e1 : d0 + (i2 + 1) = d0 + 1 + i2 := by omega
        rw [e1] at h
        exact h
      have hfday : f / daySecs = d0 := by
        have hb := hin 0 (by simp) f (by simpa using hf)
        have : f / daySecs = d0 + 0 := Nat.div_eq_of_lt_le hb.1 hb.2
        omega
      cases i with
      | zero =>
        simp [List.filter_cons, hfday]
        intro a ha
        have := fires_day_lower fs bs (d0 + 1) htail hinbs a ha
        omega
      | succ i2 =>
        have hi2 : i2 < bs.length := by simpa using Nat.lt_of_succ_lt_succ hi
        have h := ih bs (d0 + 1) htail hinbs i2 hi2
        have e1 : d0 + 1 + i2 = d0 + (i2 + 1) := by omega
        rw [e1] at h
        have hne : ¬ (f / daySecs = d0 + (i2 + 1)) := by omega
        simp only [List.filter_cons]
        simp [hne, h]

/-- Claim C8: the Batch Runner is invoked exactly once per calendar day
at the configured time-of-day while the process is running, and a day
at whose configured instant the process is not running is simply missed
with no catch-up.  The process starts at `t0` (on day `d0`); `firstDay`
holds the start day's polls and `blocks` the polls of each following
day, every following day polled at or past its instant (as 5-second
polling guarantees for a live process).  Part one: started before the
instant, with the start day polled past it, every day from `d0` on
fires exactly once — never zero, never twice.  Part two: started at or
after the instant — the process was not running at that moment — the
start day produces no firing at all however long it keeps polling
(missed, no catch-up: `schedule_day_at` schedules straight to the next
day), and every following day still fires exactly once, never twice. -/
theorem scheduler_fires_once_per_day (s t0 d0 : Nat) (firstDay : List Nat)
    (blocks : List (List Nat))
    (ht0day : t0 / daySecs = d0)
    (hfirst : ∀ p ∈ firstDay, d0 * daySecs ≤ p ∧ p < (d0 + 1) * daySecs)
    (hin : ∀ i (hi : i < blocks.length), ∀ p ∈ blocks[i],
      (d0 + 1 + i) * daySecs ≤ p ∧ p < (d0 + 1 + i + 1) * daySecs)
    (hcover : ∀ i (hi : i < blocks.length), ∃ p ∈ blocks[i],
      (d0 + 1 + i) * daySecs + s ≤ p) :
    (t0 % daySecs < s → (∃ p ∈ firstDay, d0 * daySecs + s ≤ p) →
      ∃ fires, scheduler_loop s (schedule_day_at s t0) (firstDay ++ blocks.flatten) =
          (fires, ⟨(d0 + 1 + blocks.length) * daySecs + s⟩) ∧
        List.Forall₂ (fun q b => q ∈ b) fires (firstDay :: blocks) ∧
        ∀ i, i < blocks.length + 1 →
          (fires.filter (fun q => decide (q / daySecs = d0 + i))).length = 1) ∧
    (s ≤ t0 % daySecs →
      ∃ fires, scheduler_loop s (schedule_day_at s t0) (firstDay ++ blocks.flatten) =
          (fires, ⟨(d0 + 1 + blocks.length) * daySecs + s⟩) ∧
        List.Forall₂ (fun q b => q ∈ b) fires blocks ∧
        (fires.filter (fun q => decide (q / daySecs = d0))).length = 0 ∧
        ∀ i, i < blocks.length →
          (fires.filter (fun q => decide (q / daySecs = d0 + 1 + i))).length = 1) := by
  constructor
  · intro hlt hcov0
    have hinit : schedule_day_at s t0 = ⟨d0 * daySecs + s⟩ := by
      simp [schedule_day_at, hlt, ht0day]
    have hin2 : ∀ i (hi : i < (firstDay :: blocks).length), ∀ p ∈ (firstDay :: blocks)[i],
        (d0 + i) * daySecs ≤ p ∧ p < (d0 + i + 1) * daySecs := by
      intro i hi p hp
      cases i with
      | zero => simpa using hfirst p (by simpa using hp)
      | succ i2 =>
        have h := hin i2 (by simpa using Nat.lt_of_succ_lt_succ hi) p (by simpa using hp)
        have e1 : d0 + 1 + i2 = d0 + (i2 + 1) := by omega
        rw [e1] at h
        exact h
    have hcover2 : ∀ i (hi : i < (firstDay :: blocks).length),
        ∃ p ∈ (firstDay :: blocks)[i], (d0 + i) * daySecs + s ≤ p := by
      intro i hi
      cases i with
      | zero => simpa using hcov0
      | succ i2 =>
        have h := hcover i2 (by simpa using Nat.lt_of_succ_lt_succ hi)
        have e1 : d0 + 1 + i2 = d0 + (i2 + 1) := by omega
        rw [e1] at h
        simpa using h
    obtain ⟨fires, hrun, hfa⟩ := scheduler_loop_blocks s (firstDay :: blocks) d0 hin2 hcover2
    have hflat : (firstDay :: blocks).flatten = firstDay ++ blocks.flatten := by simp
    have e2 : d0 + (firstDay :: blocks).length = d0 + 1 + blocks.length := by
      simp only [List.length_cons]
      omega
    rw [hflat, e2] at hrun
    refine ⟨fires, ?_, hfa, fun i hi => ?_⟩
    · rw [hinit]
      exact hrun
    · exact fires_filter_count fires (firstDay :: blocks) d0 hfa hin2 i (by simpa using hi)
  · intro hge
    have hinit : schedule_day_at s t0 = ⟨(d0 + 1) * daySecs + s⟩ := by
      simp [schedule_day_at, ht0day, Nat.not_lt.mpr hge]
    have hquiet := scheduler_loop_quiet s ((d0 + 1) * daySecs + s) firstDay
      (fun p hp => Nat.lt_of_lt_of_le (hfirst p hp).2 (Nat.le_add_right _ s))
    obtain ⟨fires, hrun, hfa⟩ := scheduler_loop_blocks s blocks (d0 + 1) hin hcover
    have hlow := fires_day_lower fires blocks (d0 + 1) hfa hin
    refine ⟨fires, ?_, hfa, ?_, ?_⟩
    · rw [hinit, scheduler_loop_append, hquiet]
      simp [hrun]
    · have hnil : fires.filter (fun q => decide (q / daySecs = d0)) = [] := by
        rw [List.filter_eq_nil_iff]
        intro q hq
        have := hlow q hq
        simp only [decide_eq_true_eq]
        omega
      rw [hnil]
      rfl
    · intro i hi
      exact fires_filter_count fires blocks (d0 + 1) hfa hin i hi

/-- Witness for C8, exercising both halves with the configured "02:00"
(7200 s).  Early start: process up from midnight of day 0, fires once
on each of days 0 and 1.  Late start: process only started at second
8000 of day 0 (after 02:00) — day 0 gets no firing at all although
polling continues past 02:13, and day 1 still fires exactly once. -/
theorem scheduler_fires_once_per_day_witness :
    (∃ fires, scheduler_loop SCHEDULE_TIME_secs (schedule_day_at SCHEDULE_TIME_secs 0)
        ([0, 5000, 7200, 7205] ++ ([[90000, 93600, 93605]] : List (List Nat)).flatten) =
        (fires, ⟨(0 + 1 + ([[90000, 93600, 93605]] : List (List Nat)).length) * daySecs + SCHEDULE_TIME_secs⟩) ∧
      List.Forall₂ (fun q b => q ∈ b) fires ([0, 5000, 7200, 7205] :: [[90000, 93600, 93605]]) ∧
      ∀ i, i < ([[90000, 93600, 93605]] : List (List Nat)).length + 1 →
        (fires.filter (fun q => decide (q / daySecs = 0 + i))).length = 1) ∧
    (∃ fires, scheduler_loop SCHEDULE_TIME_secs (schedule_day_at SCHEDULE_TIME_secs 8000)
        ([8000, 8005, 50000] ++ ([[90000, 93600, 93605]] : List (List Nat)).flatten) =
        (fires, ⟨(0 + 1 + ([[90000, 93600, 93605]] : List (List Nat)).length) * daySecs + SCHEDULE_TIME_secs⟩) ∧
      List.Forall₂ (fun q b => q ∈ b) fires [[90000, 93600, 93605]] ∧
      (fires.filter (fun q => decide (q / daySecs = 0))).length = 0 ∧
      ∀ i, i < ([[90000, 93600, 93605]] : List (List Nat)).length →
        (fires.filter (fun q => decide (q / daySecs = 0 + 1 + i))).length = 1) :=
  ⟨(scheduler_fires_once_per_day SCHEDULE_TIME_secs 0 0 [0, 5000, 7200, 7205]
      [[90000, 93600, 93605]] (by decide) (by decide) (by decide) (by decide)).1
      (by decide) (by decide),
   (scheduler_fires_once_per_day SCHEDULE_TIME_secs 8000 0 [8000, 8005, 50000]
      [[90000, 93600, 93605]] (by decide) (by decide) (by decide) (by decide)).2
      (by decide)⟩

end RunVote
